import Mathlib

/-! Verification of the sharedstructures pool / allocator / prefix-tree
    specification against the repository's code.

    The Pool model below is a shallow embedding of src/Pool.cc.  The
    allocator and tree models are built from the specification because only
    their tests and callers appear under src/. -/

namespace SharedStructuresProof

/-- Page size assumed by src/Pool.cc (`#define PAGE_SIZE 4096`). -/
def PAGE_SIZE : Nat := 4096

/-- Rounding used by `Pool::expand`:
    `(new_size + PAGE_SIZE - 1) & (~(PAGE_SIZE - 1))` computed on `size_t`,
    i.e. `new_size + 4095` wraps modulo `2^64` and then has its low 12 bits
    cleared.  This rounds up to a page multiple, except that a `new_size`
    within `PAGE_SIZE - 1` of `2^64` wraps around to `0`. -/
def roundUpPage (n : Nat) : Nat :=
  (n + PAGE_SIZE - 1) % 2 ^ 64 - (n + PAGE_SIZE - 1) % 2 ^ 64 % PAGE_SIZE

/-- Errors a Pool operation can raise (src/Pool.cc throws; the spec names
    the expansion-beyond-maximum error *ExceedsMax*). -/
inductive PoolErr : Type where
  | exceedsMax : PoolErr
deriving DecidableEq, Repr

/-- State of one process's `Pool` object together with the shared segment.
    `pool_size` is the process-local mapped size (`this->pool_size`),
    `header_size` is the size field stored in the shared pool header
    (`this->data->size`), `file_size` is the size of the underlying
    segment as reported by `fstat`, and `max_size` is the per-object
    maximum (`this->max_size`, 0 meaning unset). -/
structure PoolState : Type where
  pool_size : Nat
  header_size : Nat
  file_size : Nat
  max_size : Nat
deriving DecidableEq, Repr

namespace Pool

/-- `Pool::size`: `return this->data->size;` — the value read is the size
    recorded in the shared pool header, not the process-local mapped size. -/
def size (s : PoolState) : Nat := s.header_size

/-- `Pool::check_size_and_remap`: reads
    `new_pool_size = this->pool_size ? this->data->size.load() : fstat(...).st_size`
    and, when `new_pool_size != this->pool_size`, un-maps and re-maps the view
    with `pool_size := new_pool_size`.  The second component records whether a
    remap happened. -/
def check_size_and_remap (s : PoolState) : PoolState × Bool :=
  let new_pool_size := if s.pool_size ≠ 0 then s.header_size else s.file_size
  if new_pool_size ≠ s.pool_size then
    (⟨new_pool_size, s.header_size, s.file_size, s.max_size⟩, true)
  else
    (s, false)

/-- `Pool::expand`: returns immediately when `new_size < this->pool_size`;
    otherwise rounds up to a page multiple, throws when the per-object
    `max_size` is set and exceeded, else truncates the segment to the new
    size, stores it in the header, and calls `check_size_and_remap`.
    A successful `ftruncate` is assumed (the OS-refusal error *CannotResize*
    is not modelled). -/
def expand (s : PoolState) (new_size : Nat) : Except PoolErr PoolState :=
  if new_size < s.pool_size then
    .ok s
  else
    let ns := roundUpPage new_size
    if s.max_size ≠ 0 ∧ s.max_size < ns then
      .error .exceedsMax
    else
      let s1 : PoolState := ⟨s.pool_size, ns, ns, s.max_size⟩
      .ok (check_size_and_remap s1).1

end Pool

/-- Pool states reachable through the operations of src/Pool.cc:
    creating a fresh segment (the constructor truncates it to one page and
    records that size in the header), attaching a further process object to
    an existing segment (mapping `fstat` bytes), this object expanding or
    re-mapping, and another attached process expanding the shared segment
    (which replaces the segment/header size by a page-multiple at least as
    large as that process's own view, i.e. at least one page). -/
inductive PoolReach : PoolState → Prop where
  | create (m : Nat) :
      PoolReach ⟨PAGE_SIZE, PAGE_SIZE, PAGE_SIZE, m⟩
  | attach (s : PoolState) (m : Nat) :
      PoolReach s → PoolReach ⟨s.file_size, s.header_size, s.file_size, m⟩
  | selfExpand (s s' : PoolState) (n : Nat) :
      PoolReach s → Pool.expand s n = .ok s' → PoolReach s'
  | remap (s : PoolState) :
      PoolReach s → PoolReach (Pool.check_size_and_remap s).1
  | otherExpand (s : PoolState) (n : Nat) :
      PoolReach s → n = roundUpPage n → PAGE_SIZE ≤ n →
      PoolReach ⟨s.pool_size, n, n, s.max_size⟩

/-! ## Allocator accounting model

The allocator implementations (SimpleAllocator, LogarithmicAllocator) are
not under src/; only src/AllocatorBenchmark.cc exercises them.  The model
below follows the specification's accounting contract and the benchmark's
expectations: each live block records the size that was requested for it,
`block_size` returns that recorded size, `bytes_allocated` grows by the
requested size on `allocate` and shrinks by the block's recorded size on
`free`. -/

/-- Modelled from the spec: accounting state of an allocator (the concrete
    free-list layout is not under src/).  `blocks` maps each currently-live
    offset to the size requested for it, `ba` is the `bytes_allocated`
    counter, and `next` produces fresh offsets. -/
structure AllocState : Type where
  blocks : List (Nat × Nat)
  ba : Nat
  next : Nat
deriving DecidableEq, Repr

/-- Modelled from the spec: a freshly constructed allocator has no user
    blocks; `base` is whatever `bytes_allocated` reports before any user
    allocation. -/
def allocInit (base : Nat) : AllocState := ⟨[], base, 0⟩

/-- Modelled from the spec: `allocate(n)` returns the offset of a fresh
    block and accounts the requested `n` bytes. -/
def AllocState.allocate (s : AllocState) (n : Nat) : AllocState × Nat :=
  (⟨(s.next, n) :: s.blocks, s.ba + n, s.next + n + 1⟩, s.next)

/-- Modelled from the spec: `block_size(offset)` returns the size recorded
    for a live block, `none` if the offset is not live. -/
def AllocState.block_size (s : AllocState) (off : Nat) : Option Nat :=
  (s.blocks.find? (fun p => p.1 == off)).map Prod.snd

/-- Removes the first block with the given offset from the block list. -/
def removeBlock : List (Nat × Nat) → Nat → List (Nat × Nat)
  | [], _ => []
  | p :: rest, off => if p.1 = off then rest else p :: removeBlock rest off

/-- Modelled from the spec: `free(offset)` releases a live block and
    deducts its recorded size from `bytes_allocated`; freeing an unknown
    offset is left as a no-op (the contract calls it undefined). -/
def AllocState.freeBlock (s : AllocState) (off : Nat) : AllocState :=
  match s.blocks.find? (fun p => p.1 == off) with
  | none => s
  | some p => ⟨removeBlock s.blocks off, s.ba - p.2, s.next⟩

/-- One allocator call, as issued by src/AllocatorBenchmark.cc. -/
inductive AllocOp : Type where
  | alloc (n : Nat) : AllocOp
  | free (off : Nat) : AllocOp
deriving DecidableEq, Repr

/-- Runs a sequence of allocate/free calls. -/
def runAllocOps (s : AllocState) : List AllocOp → AllocState
  | [] => s
  | .alloc n :: ops => runAllocOps (s.allocate n).1 ops
  | .free off :: ops => runAllocOps (s.freeBlock off) ops

/-- Sum of the recorded (requested) sizes of a block list. -/
def sumSizes (bs : List (Nat × Nat)) : Nat := (bs.map Prod.snd).sum

/-! ## PrefixTree model

PrefixTree.{hh,cc} are not under src/; the model is built from the
specification (§4.3) and matches the node counts that
src/PrefixTreeTest.cc asserts: a node carries an optional value slot of
its own plus a sparse byte-indexed child array whose slots hold either a
direct value (for a key that ends one byte below this node with nothing
stored beneath it) or a child node. -/

/-- The tagged variant stored by the tree.  `Double` payloads are modelled
    as exact rationals; byte strings as lists of byte values. -/
inductive Value : Type where
  | null : Value
  | bool (b : Bool) : Value
  | int (i : Int) : Value
  | dbl (q : Rat) : Value
  | str (s : List Nat) : Value
deriving DecidableEq, Repr

mutual
/-- Modelled from the spec: a tree node is an optional value slot plus a
    sparse child array (kept in ascending byte order). -/
inductive PTNode : Type where
  | mk : Option Value → ChildList → PTNode
/-- Modelled from the spec: the sparse child array; each occupied slot
    holds either a directly stored value or a child node. -/
inductive ChildList : Type where
  | nil : ChildList
  | cval : Nat → Value → ChildList → ChildList
  | cnode : Nat → PTNode → ChildList → ChildList
end

/-- A freshly created tree: the root alone, holding nothing. -/
def emptyNode : PTNode := .mk none .nil

/-- Builds the chain of fresh nodes for the unmatched remainder of an
    inserted key, ending in a directly stored value, and in front of
    `tail`. -/
def chainSlot (b : Nat) : List Nat → Value → ChildList → ChildList
  | [], v, tail => .cval b v tail
  | c :: rest, v, tail => .cnode b (.mk none (chainSlot c rest v .nil)) tail

mutual
/-- Modelled from the spec: `insert` walks the key byte-by-byte, creating
    child nodes as needed, and stores the value at the terminal position
    (the node's own slot for the empty remainder, a direct child slot for
    a final byte, promoting a direct value to a node when a longer key
    passes through it). -/
def insertNode : PTNode → List Nat → Value → PTNode
  | .mk _ ch, [], v => .mk (some v) ch
  | .mk ov ch, b :: rest, v => .mk ov (insertCh ch b rest v)
/-- Child-array part of `insert`; keeps slots in ascending byte order. -/
def insertCh : ChildList → Nat → List Nat → Value → ChildList
  | .nil, b, rest, v => chainSlot b rest v .nil
  | .cval b' w tail, b, rest, v =>
      if b = b' then
        match rest with
        | [] => .cval b' v tail
        | c :: rest' => .cnode b' (.mk (some w) (chainSlot c rest' v .nil)) tail
      else if b < b' then chainSlot b rest v (.cval b' w tail)
      else .cval b' w (insertCh tail b rest v)
  | .cnode b' m tail, b, rest, v =>
      if b = b' then .cnode b' (insertNode m rest v) tail
      else if b < b' then chainSlot b rest v (.cnode b' m tail)
      else .cnode b' m (insertCh tail b rest v)
end

/-- Re-attaches a child node after an erase below it: a node left with no
    value and no children is freed, a node left with a value and no
    children collapses to a directly stored value, anything else stays a
    node. -/
def reattach (b : Nat) (n : PTNode) (tail : ChildList) : ChildList :=
  match n with
  | .mk none .nil => tail
  | .mk (some w) .nil => .cval b w tail
  | .mk ov (.cval c w ctail) => .cnode b (.mk ov (.cval c w ctail)) tail
  | .mk ov (.cnode c m ctail) => .cnode b (.mk ov (.cnode c m ctail)) tail

mutual
/-- Modelled from the spec: `erase` clears the stored value for the key if
    present and walks back toward the root, pruning nodes that are left
    with no value and no children (and collapsing a childless valued node
    into a direct slot value); returns whether a removal occurred. -/
def eraseNode : PTNode → List Nat → PTNode × Bool
  | .mk ov ch, [] => (.mk none ch, ov.isSome)
  | .mk ov ch, b :: rest =>
      let r := eraseCh ch b rest
      (.mk ov r.1, r.2)
/-- Child-array part of `erase`. -/
def eraseCh : ChildList → Nat → List Nat → ChildList × Bool
  | .nil, _, _ => (.nil, false)
  | .cval b' w tail, b, rest =>
      if b = b' then
        match rest with
        | [] => (tail, true)
        | _ :: _ => (.cval b' w tail, false)
      else
        let r := eraseCh tail b rest
        (.cval b' w r.1, r.2)
  | .cnode b' m tail, b, rest =>
      if b = b' then
        let r := eraseNode m rest
        (reattach b' r.1 tail, r.2)
      else
        let r := eraseCh tail b rest
        (.cnode b' m r.1, r.2)
end

mutual
/-- Modelled from the spec: `at`/`exists`/`type` probe — the value stored
    for a key, if any. -/
def lookupNode : PTNode → List Nat → Option Value
  | .mk ov _, [] => ov
  | .mk _ ch, b :: rest => lookupCh ch b rest
/-- Child-array part of `lookupNode`. -/
def lookupCh : ChildList → Nat → List Nat → Option Value
  | .nil, _, _ => none
  | .cval b' w tail, b, rest =>
      if b = b' then (if rest = [] then some w else none)
      else lookupCh tail b rest
  | .cnode b' m tail, b, rest =>
      if b = b' then lookupNode m rest
      else lookupCh tail b rest
end

mutual
/-- `PrefixTree::node_size()`: the number of live nodes, root included. -/
def nodeSize : PTNode → Nat
  | .mk _ ch => 1 + chNodeSize ch
/-- Nodes reachable through a child array. -/
def chNodeSize : ChildList → Nat
  | .nil => 0
  | .cval _ _ tail => chNodeSize tail
  | .cnode _ m tail => nodeSize m + chNodeSize tail
end

mutual
/-- `PrefixTree::size()`: the number of stored keys. -/
def countValues : PTNode → Nat
  | .mk ov ch => (if ov.isSome then 1 else 0) + chCountValues ch
/-- Keys stored within a child array. -/
def chCountValues : ChildList → Nat
  | .nil => 0
  | .cval _ _ tail => 1 + chCountValues tail
  | .cnode _ m tail => countValues m + chCountValues tail
end

mutual
/-- Modelled from the spec: iteration, depth-first with a node's own value
    first and then its child slots in ascending byte order; `p` is the key
    path leading to the node. -/
def iterNode : PTNode → List Nat → List (List Nat × Value)
  | .mk ov ch, p =>
      (match ov with | some v => [(p, v)] | none => []) ++ iterCh ch p
/-- Child-array part of `iterNode`. -/
def iterCh : ChildList → List Nat → List (List Nat × Value)
  | .nil, _ => []
  | .cval b w tail, p => (p ++ [b], w) :: iterCh tail p
  | .cnode b m tail, p => iterNode m (p ++ [b]) ++ iterCh tail p
end

/-- The keys currently stored, in iteration order. -/
def keysOf (t : PTNode) : List (List Nat) := (iterNode t []).map Prod.fst

/-- Erases a list of keys in order. -/
def eraseList (t : PTNode) : List (List Nat) → PTNode
  | [] => t
  | k :: ks => eraseList (eraseNode t k).1 ks

/-- Modelled from the spec: `clear()` removes all keys (here: erases every
    stored key). -/
def clearTree (t : PTNode) : PTNode := eraseList t (keysOf t)

/-- Reduction of a 64-bit two's-complement sum into `[-2^63, 2^63)`. -/
def wrap64 (x : Int) : Int := (x + 2 ^ 63) % 2 ^ 64 - 2 ^ 63

/-- The error `incr` can raise (surfaced as *TypeMismatch*). -/
inductive TreeErr : Type where
  | typeMismatch : TreeErr
deriving DecidableEq, Repr

/-- Modelled from the spec: `incr(key, delta: i64)` — creates the key with
    value `delta` when absent, adds (in 64-bit arithmetic) when an integer
    is stored, and fails with *TypeMismatch* on any other stored type,
    leaving the tree unchanged. -/
def incrInt (t : PTNode) (k : List Nat) (d : Int) : PTNode × Except TreeErr Int :=
  match lookupNode t k with
  | none => (insertNode t k (.int d), .ok d)
  | some (.int x) =>
      let sum := wrap64 (x + d)
      (insertNode t k (.int sum), .ok sum)
  | some _ => (t, .error .typeMismatch)

/-- Modelled from the spec: `incr(key, delta: f64)`, with `Double`
    payloads modelled as exact rationals. -/
def incrDbl (t : PTNode) (k : List Nat) (d : Rat) : PTNode × Except TreeErr Rat :=
  match lookupNode t k with
  | none => (insertNode t k (.dbl d), .ok d)
  | some (.dbl x) => (insertNode t k (.dbl (x + d)), .ok (x + d))
  | some _ => (t, .error .typeMismatch)

/-- Allocator bytes held by one value: strings live in separately
    allocated blocks, scalars are stored inline. -/
def valueBytes : Value → Nat
  | .str s => s.length
  | _ => 0

mutual
/-- Modelled from the spec: bytes of allocator-owned storage held by a
    subtree — `nodeCost` bytes per node plus the string blocks it
    references. -/
def allocBytes (nodeCost : Nat) : PTNode → Nat
  | .mk ov ch =>
      nodeCost + (match ov with | some v => valueBytes v | none => 0) +
        chAllocBytes nodeCost ch
/-- Child-array part of `allocBytes`. -/
def chAllocBytes (nodeCost : Nat) : ChildList → Nat
  | .nil => 0
  | .cval _ v tail => valueBytes v + chAllocBytes nodeCost tail
  | .cnode _ m tail => allocBytes nodeCost m + chAllocBytes nodeCost tail
end

/-- Modelled from the spec: `bytes_allocated` as observed through the
    tree — the allocator's baseline plus the storage held by live tree
    structure (an allocator that leaks nothing reports exactly this). -/
def treeBA (base nodeCost : Nat) (t : PTNode) : Nat := base + allocBytes nodeCost t

/-- Strict lower bound on the first occupied byte of a child array. -/
def ltFirst (b : Nat) : ChildList → Bool
  | .nil => true
  | .cval b' _ _ => decide (b < b')
  | .cnode b' _ _ => decide (b < b')

mutual
/-- Well-formedness: every child array of the subtree is strictly
    ascending in its byte indices. -/
def nodeOk : PTNode → Bool
  | .mk _ ch => chOk ch
/-- Child-array part of `nodeOk`. -/
def chOk : ChildList → Bool
  | .nil => true
  | .cval b _ tail => ltFirst b tail && chOk tail
  | .cnode b m tail => ltFirst b tail && nodeOk m && chOk tail
end

mutual
/-- Whether a subtree stores at least one value. -/
def hasVal : PTNode → Bool
  | .mk ov ch => ov.isSome || chHasVal ch
/-- Child-array part of `hasVal`. -/
def chHasVal : ChildList → Bool
  | .nil => false
  | .cval _ _ _ => true
  | .cnode _ m tail => hasVal m || chHasVal tail
end

mutual
/-- Compaction invariant: every child node of the subtree stores at least
    one value somewhere below it (erase prunes dead branches). -/
def pruned : PTNode → Bool
  | .mk _ ch => chPruned ch
/-- Child-array part of `pruned`. -/
def chPruned : ChildList → Bool
  | .nil => true
  | .cval _ _ tail => chPruned tail
  | .cnode _ m tail => hasVal m && pruned m && chPruned tail
end

/-- Whether a byte occupies a slot of a child array. -/
def bmem (b : Nat) : ChildList → Bool
  | .nil => false
  | .cval b' _ tail => b == b' || bmem b tail
  | .cnode b' _ tail => b == b' || bmem b tail

/-- Lexicographic byte-string order on keys. -/
def keyLt (a b : List Nat) : Prop := List.Lex (· < ·) a b

/-- Tree states reachable from a freshly created tree through the public
    mutating operations. -/
inductive TReach : PTNode → Prop where
  | empty : TReach emptyNode
  | ins (t : PTNode) (k : List Nat) (v : Value) :
      TReach t → TReach (insertNode t k v)
  | ers (t : PTNode) (k : List Nat) :
      TReach t → TReach (eraseNode t k).1
  | incrI (t : PTNode) (k : List Nat) (d : Int) :
      TReach t → TReach (incrInt t k d).1
  | incrD (t : PTNode) (k : List Nat) (d : Rat) :
      TReach t → TReach (incrDbl t k d).1
  | clear (t : PTNode) :
      TReach t → TReach (clearTree t)

/-! ## Concrete states used by counterexamples and witnesses -/

/-- A view whose mapping lags a segment another process expanded. -/
def c1state : PoolState := ⟨4096, 8192, 8192, 0⟩

/-- A view whose mapping is larger than the (shrunk) segment. -/
def c2state : PoolState := ⟨8192, 4096, 4096, 0⟩

/-- A pool freshly created with `max_size = 100` (the constructor still
    sizes the segment to one page). -/
def c5state : PoolState := ⟨4096, 4096, 4096, 100⟩

/-- The S2 reorganization scenario of src/PrefixTreeTest.cc, step by
    step. -/
def s2t1 : PTNode := insertNode emptyNode [97, 98, 99] (.str [97, 98, 99])

/-- S2 after also inserting "ab". -/
def s2t2 : PTNode := insertNode s2t1 [97, 98] (.str [97, 98])

/-- S2 after erasing "abc". -/
def s2t3 : PTNode := (eraseNode s2t2 [97, 98, 99]).1

/-- S2 after inserting the empty key. -/
def s2t4 : PTNode := insertNode s2t3 [] (.str [])

/-- S2 after inserting "abcd". -/
def s2t5 : PTNode := insertNode s2t4 [97, 98, 99, 100] (.str [97, 98, 99, 100])

/-- S2 after erasing "ab". -/
def s2t6 : PTNode := (eraseNode s2t5 [97, 98]).1

/-- S2 after inserting "abcde". -/
def s2t7 : PTNode := insertNode s2t6 [97, 98, 99, 100, 101] (.str [1])

/-- S2 after inserting "abcdf". -/
def s2t8 : PTNode := insertNode s2t7 [97, 98, 99, 100, 102] (.str [2])

/-- S2 after inserting "abce". -/
def s2t9 : PTNode := insertNode s2t8 [97, 98, 99, 101] (.str [3])

/-- S2 after inserting "abcef". -/
def s2t10 : PTNode := insertNode s2t9 [97, 98, 99, 101, 102] (.str [4])

/-- A tree whose only key is the empty string. -/
def onlyEmptyKey : PTNode := insertNode emptyNode [] (.str [120])

/-- A small tree with an integer, a double and a string key, used to
    exercise `incr`. -/
def w7tree : PTNode :=
  insertNode (insertNode (insertNode emptyNode [97] (.int 5)) [98] (.dbl 2))
    [99] (.str [1])

/-- A small two-key tree used to instantiate general tree theorems. -/
def w9tree : PTNode := insertNode (insertNode emptyNode [97, 98] (.str [1])) [97] (.int 3)

/-- A concrete allocate/free sequence used to instantiate the accounting
    theorem. -/
def benchOps : List AllocOp := [.alloc 10, .alloc 5, .free 0, .free 11]

/-! ## Theorems -/

/-- The lagging view `c1state` is reachable: create the pool, then let
    another attached process expand the segment to 8192 bytes. -/
theorem c1state_reach : PoolReach c1state :=
  PoolReach.otherExpand ⟨PAGE_SIZE, PAGE_SIZE, PAGE_SIZE, 0⟩ 8192
    (PoolReach.create 0) (by decide) (by decide)

/-- The over-sized view `c2state` is reachable: create, let another
    process expand to 8192, re-map, then let a process with a stale
    one-page view call `expand(4096)`, which `ftruncate`s the segment back
    down to 4096 and stores 4096 in the header. -/
theorem c2state_reach : PoolReach c2state := by
  have h1 : PoolReach ⟨4096, 4096, 4096, 0⟩ := PoolReach.create 0
  have h2 : PoolReach ⟨4096, 8192, 8192, 0⟩ :=
    PoolReach.otherExpand ⟨4096, 4096, 4096, 0⟩ 8192 h1 (by decide) (by decide)
  have h3 := PoolReach.remap ⟨4096, 8192, 8192, 0⟩ h2
  have e : (Pool.check_size_and_remap ⟨4096, 8192, 8192, 0⟩).1 = ⟨8192, 8192, 8192, 0⟩ := by
    decide
  rw [e] at h3
  exact PoolReach.otherExpand ⟨8192, 8192, 8192, 0⟩ 4096 h3 (by decide) (by decide)

/-- C1, counterexample: at the reachable state `c1state` (mapped 4096
    bytes, segment expanded to 8192 by another process), `Pool::size()`
    does not return the process's mapped size. -/
theorem C1_counterexample : PoolReach c1state ∧ Pool.size c1state ≠ c1state.pool_size :=
  ⟨c1state_reach, by decide⟩

/-- C1, amended: `Pool::size()` returns the size recorded in the shared
    pool header (`data->size`), which can exceed — not lag — this
    process's mapped size once another process has expanded the
    segment. -/
theorem C1_amended :
    (∀ s : PoolState, Pool.size s = s.header_size) ∧
      PoolReach c1state ∧ c1state.pool_size < Pool.size c1state :=
  ⟨fun _ => rfl, c1state_reach, by decide⟩

/-- C2, counterexample: at the reachable state `c2state` the recorded size
    (4096) is smaller than `pool_size` (8192), yet
    `check_size_and_remap` still un-maps and re-maps, because its guard
    compares with `!=` rather than `>`. -/
theorem C2_counterexample :
    PoolReach c2state ∧ (Pool.check_size_and_remap c2state).2 = true ∧
      ¬ c2state.pool_size < c2state.header_size :=
  ⟨c2state_reach, by decide, by decide⟩

/-- C2, amended: `check_size_and_remap` (on a mapped pool) un-maps and
    re-maps exactly when the header's recorded size differs from this
    process's `pool_size` — adopting the recorded size — and leaves the
    mapping unchanged otherwise. -/
theorem C2_amended (s : PoolState) (h : 0 < s.pool_size) :
    ((Pool.check_size_and_remap s).2 = true ↔ s.header_size ≠ s.pool_size) ∧
      ((Pool.check_size_and_remap s).2 = false → Pool.check_size_and_remap s = (s, false)) ∧
      ((Pool.check_size_and_remap s).2 = true →
        Pool.check_size_and_remap s =
          (⟨s.header_size, s.header_size, s.file_size, s.max_size⟩, true)) := by
  have hz : s.pool_size ≠ 0 := Nat.pos_iff_ne_zero.mp h
  by_cases hne : s.header_size = s.pool_size <;>
    simp [Pool.check_size_and_remap, hz, hne]

/-- C2, amended, witness at the concrete state `c1state`. -/
theorem C2_amended_witness :
    ((Pool.check_size_and_remap c1state).2 = true ↔
        c1state.header_size ≠ c1state.pool_size) ∧
      ((Pool.check_size_and_remap c1state).2 = false →
        Pool.check_size_and_remap c1state = (c1state, false)) ∧
      ((Pool.check_size_and_remap c1state).2 = true →
        Pool.check_size_and_remap c1state =
          (⟨c1state.header_size, c1state.header_size, c1state.file_size,
              c1state.max_size⟩, true)) :=
  C2_amended c1state (by decide)

/-- The `size_t` rounding wraps to zero just below `2^64`, and `expand`
    on such a size therefore skips the *ExceedsMax* check exactly as the
    source does (proceeding to truncate the segment to zero bytes). -/
theorem roundUpPage_wrap :
    roundUpPage (2 ^ 64 - 1) = 0 ∧
      Pool.expand c5state (2 ^ 64 - 1) = .ok ⟨0, 0, 0, 100⟩ :=
  ⟨by decide, by rfl⟩

/-- C5, counterexample: a pool freshly created with `max_size = 100` has
    `pool_size = 4096`, so `expand(50)` returns through the early
    `new_size < pool_size` exit without raising *ExceedsMax*, although the
    page-rounded size 4096 exceeds `max_size`. -/
theorem C5_counterexample :
    PoolReach c5state ∧ Pool.expand c5state 50 = .ok c5state ∧
      c5state.max_size ≠ 0 ∧ c5state.max_size < roundUpPage 50 :=
  ⟨PoolReach.create 100, by rfl, by decide, by decide⟩

/-- C5, amended: `expand(new_size)` fails with *ExceedsMax* — leaving the
    segment untouched — exactly when `new_size` is not below the current
    `pool_size`, `max_size` is set, and the page-rounded size exceeds
    `max_size`; in particular no *ExceedsMax* failure is possible with
    `max_size` unset. -/
theorem C5_amended (s : PoolState) (n : Nat) :
    Pool.expand s n = .error .exceedsMax ↔
      ¬ n < s.pool_size ∧ s.max_size ≠ 0 ∧ s.max_size < roundUpPage n := by
  by_cases h1 : n < s.pool_size
  · simp [Pool.expand, h1]
  · by_cases h2 : s.max_size ≠ 0 ∧ s.max_size < roundUpPage n <;>
      simp [Pool.expand, h1, h2]

/-- C10: `expand(new_size)` with `new_size` strictly below the mapped
    `pool_size` returns immediately: no error, no resize, no header write,
    no remap. -/
theorem C10_expand_noop (s : PoolState) (n : Nat) (h : n < s.pool_size) :
    Pool.expand s n = .ok s := by
  simp [Pool.expand, h]

/-- C10, witness: `expand(100)` on the 4096-byte-mapped state `c1state`
    leaves it untouched. -/
theorem C10_expand_noop_witness : Pool.expand c1state 100 = .ok c1state :=
  C10_expand_noop c1state 100 (by decide)

/-- Accounting step: `allocate` and `free` preserve
    `ba = base + sumSizes blocks`. -/
theorem sumSizes_cons (p : Nat × Nat) (bs : List (Nat × Nat)) :
    sumSizes (p :: bs) = p.2 + sumSizes bs := by
  simp [sumSizes]

/-- If a block is found, the block list splits into it and the rest. -/
theorem find_remove (off : Nat) (bs : List (Nat × Nat)) (p : Nat × Nat)
    (h : bs.find? (fun q => q.1 == off) = some p) :
    sumSizes bs = p.2 + sumSizes (removeBlock bs off) := by
  induction bs with
  | nil => simp [List.find?] at h
  | cons q rest ih =>
    by_cases hq : q.1 = off
    · rw [List.find?_cons_of_pos _ (by simpa using hq)] at h
      cases h
      simp [removeBlock, hq, sumSizes_cons]
    · rw [List.find?_cons_of_neg _ (by simpa using hq)] at h
      have := ih h
      simp [removeBlock, hq, sumSizes_cons, this]
      omega

/-- Running any operation sequence preserves the accounting invariant. -/
theorem runAlloc_inv (base : Nat) (ops : List AllocOp) :
    ∀ s : AllocState, s.ba = base + sumSizes s.blocks →
      (runAllocOps s ops).ba = base + sumSizes (runAllocOps s ops).blocks := by
  induction ops with
  | nil => intro s hs; simpa [runAllocOps] using hs
  | cons op ops ih =>
    intro s hs
    match op with
    | .alloc n =>
      apply ih
      simp [AllocState.allocate, sumSizes_cons, hs]
      omega
    | .free off =>
      apply ih
      unfold AllocState.freeBlock
      cases hf : s.blocks.find? (fun q => q.1 == off) with
      | none => simpa using hs
      | some p =>
        have := find_remove off s.blocks p hf
        simp only []
        rw [hs, this]
        omega

/-- C4: after any sequence of allocate/free calls, `bytes_allocated`
    equals the baseline plus the sum of the sizes requested for the
    currently-live blocks, and once every live block has been freed it is
    back to its pre-allocation baseline. -/
theorem C4_accounting (base : Nat) (ops : List AllocOp) :
    (runAllocOps (allocInit base) ops).ba =
        base + sumSizes (runAllocOps (allocInit base) ops).blocks ∧
      ((runAllocOps (allocInit base) ops).blocks = [] →
        (runAllocOps (allocInit base) ops).ba = base) := by
  have h := runAlloc_inv base ops (allocInit base) (by simp [allocInit, sumSizes])
  exact ⟨h, fun he => by simpa [he, sumSizes] using h⟩

/-- C4, witness: a run of two allocations followed by freeing both blocks
    returns `bytes_allocated` to its baseline 7. -/
theorem C4_accounting_witness : (runAllocOps (allocInit 7) benchOps).ba = 7 :=
  (C4_accounting 7 benchOps).2 (by decide)

/-! ### Tree invariant preservation: insert -/

/-- A lower bound below another bound is still a lower bound. -/
theorem ltFirst_trans (x y : Nat) (ch : ChildList) (hxy : x < y)
    (h : ltFirst y ch = true) : ltFirst x ch = true := by
  cases ch <;> simp [ltFirst] at h ⊢ <;> omega

/-- The first byte of a freshly built chain is its head byte. -/
theorem chainSlot_ltFirst (x b : Nat) (rest : List Nat) (v : Value) (tail : ChildList) :
    ltFirst x (chainSlot b rest v tail) = decide (x < b) := by
  cases rest <;> simp [chainSlot, ltFirst]

/-- A freshly built chain in front of a well-ordered tail is well-ordered. -/
theorem chainSlot_ok (b : Nat) (rest : List Nat) (v : Value) (tail : ChildList)
    (h1 : chOk tail = true) (h2 : ltFirst b tail = true) :
    chOk (chainSlot b rest v tail) = true := by
  induction rest generalizing b tail with
  | nil => simp [chainSlot, chOk, h1, h2]
  | cons c rest ih =>
    simp [chainSlot, chOk, nodeOk, h1, h2]
    exact ih c .nil rfl rfl

/-- A freshly built chain stores the inserted value. -/
theorem chainSlot_hasVal (b : Nat) (rest : List Nat) (v : Value) (tail : ChildList) :
    chHasVal (chainSlot b rest v tail) = true := by
  induction rest generalizing b tail with
  | nil => simp [chainSlot, chHasVal]
  | cons c rest ih => simp [chainSlot, chHasVal, hasVal, ih c .nil]

/-- A freshly built chain is fully live. -/
theorem chainSlot_pruned (b : Nat) (rest : List Nat) (v : Value) (tail : ChildList)
    (h : chPruned tail = true) : chPruned (chainSlot b rest v tail) = true := by
  induction rest generalizing b tail with
  | nil => simp [chainSlot, chPruned, h]
  | cons c rest ih =>
    simp [chainSlot, chPruned, h, pruned, chainSlot_hasVal, hasVal]
    exact ih c .nil rfl

/-- Inserting a byte above a lower bound keeps the bound. -/
theorem insertCh_ltFirst (ch : ChildList) (x b : Nat) (rest : List Nat) (v : Value)
    (hxb : x < b) (h : ltFirst x ch = true) :
    ltFirst x (insertCh ch b rest v) = true := by
  cases ch with
  | nil => simpa [insertCh, chainSlot_ltFirst] using hxb
  | cval b' w tail =>
    simp only [ltFirst, decide_eq_true_eq] at h
    by_cases hb : b = b'
    · subst hb; cases rest <;> simp [insertCh, ltFirst, h]
    · by_cases hlt : b < b'
      · simp [insertCh, hb, hlt, chainSlot_ltFirst, hxb]
      · simp [insertCh, hb, hlt, ltFirst, h]
  | cnode b' m tail =>
    simp only [ltFirst, decide_eq_true_eq] at h
    by_cases hb : b = b'
    · subst hb; simp [insertCh, ltFirst, h]
    · by_cases hlt : b < b'
      · simp [insertCh, hb, hlt, chainSlot_ltFirst, hxb]
      · simp [insertCh, hb, hlt, ltFirst, h]

mutual
/-- Insertion preserves the byte-ordering invariant. -/
theorem insertNode_ok (t : PTNode) (k : List Nat) (v : Value)
    (h : nodeOk t = true) : nodeOk (insertNode t k v) = true := by
  match t, k with
  | .mk ov ch, [] => simpa [insertNode, nodeOk] using h
  | .mk ov ch, b :: rest =>
    simp only [insertNode, nodeOk] at h ⊢
    exact insertCh_ok ch b rest v h
/-- Child-array part of `insertNode_ok`. -/
theorem insertCh_ok (ch : ChildList) (b : Nat) (rest : List Nat) (v : Value)
    (h : chOk ch = true) : chOk (insertCh ch b rest v) = true := by
  match ch with
  | .nil =>
    simp only [insertCh]
    exact chainSlot_ok b rest v .nil rfl rfl
  | .cval b' w tail =>
    simp only [chOk, Bool.and_eq_true] at h
    obtain ⟨hf, hc⟩ := h
    by_cases hb : b = b'
    · subst hb
      cases rest with
      | nil => simp [insertCh, chOk, hf, hc]
      | cons c rest' =>
        simp [insertCh, chOk, nodeOk, hf, hc]
        exact chainSlot_ok c rest' v .nil rfl rfl
    · by_cases hlt : b < b'
      · simp only [insertCh, if_neg hb, if_pos hlt]
        exact chainSlot_ok b rest v (.cval b' w tail) (by simp [chOk, hf, hc])
          (by simp [ltFirst, hlt])
      · simp only [insertCh, if_neg hb, if_neg hlt]
        have hb' : b' < b := by omega
        simp [chOk, insertCh_ltFirst tail b' b rest v hb' hf,
          insertCh_ok tail b rest v hc]
  | .cnode b' m tail =>
    simp only [chOk, Bool.and_eq_true] at h
    obtain ⟨⟨hf, hm⟩, hc⟩ := h
    by_cases hb : b = b'
    · subst hb
      simp [insertCh, chOk, hf, hc, insertNode_ok m rest v hm]
    · by_cases hlt : b < b'
      · simp only [insertCh, if_neg hb, if_pos hlt]
        exact chainSlot_ok b rest v (.cnode b' m tail) (by simp [chOk, hf, hm, hc])
          (by simp [ltFirst, hlt])
      · simp only [insertCh, if_neg hb, if_neg hlt]
        have hb' : b' < b := by omega
        simp [chOk, hm, insertCh_ltFirst tail b' b rest v hb' hf,
          insertCh_ok tail b rest v hc]
end

mutual
/-- An inserted-into subtree stores at least the inserted value. -/
theorem insertNode_hasVal (t : PTNode) (k : List Nat) (v : Value) :
    hasVal (insertNode t k v) = true := by
  match t, k with
  | .mk ov ch, [] => simp [insertNode, hasVal]
  | .mk ov ch, b :: rest => simp [insertNode, hasVal, insertCh_hasVal ch b rest v]
/-- Child-array part of `insertNode_hasVal`. -/
theorem insertCh_hasVal (ch : ChildList) (b : Nat) (rest : List Nat) (v : Value) :
    chHasVal (insertCh ch b rest v) = true := by
  match ch with
  | .nil => simp [insertCh, chainSlot_hasVal]
  | .cval b' w tail =>
    by_cases hb : b = b'
    · subst hb; cases rest <;> simp [insertCh, chHasVal, hasVal]
    · by_cases hlt : b < b' <;> simp [insertCh, hb, hlt, chainSlot_hasVal, chHasVal]
  | .cnode b' m tail =>
    by_cases hb : b = b'
    · subst hb; simp [insertCh, chHasVal, insertNode_hasVal m rest v]
    · by_cases hlt : b < b' <;>
        simp [insertCh, hb, hlt, chainSlot_hasVal, chHasVal,
          insertCh_hasVal tail b rest v]
end

mutual
/-- Insertion preserves the compaction invariant. -/
theorem insertNode_pruned (t : PTNode) (k : List Nat) (v : Value)
    (h : pruned t = true) : pruned (insertNode t k v) = true := by
  match t, k with
  | .mk ov ch, [] => simpa [insertNode, pruned] using h
  | .mk ov ch, b :: rest =>
    simp only [insertNode, pruned] at h ⊢
    exact insertCh_pruned ch b rest v h
/-- Child-array part of `insertNode_pruned`. -/
theorem insertCh_pruned (ch : ChildList) (b : Nat) (rest : List Nat) (v : Value)
    (h : chPruned ch = true) : chPruned (insertCh ch b rest v) = true := by
  match ch with
  | .nil =>
    simp only [insertCh]
    exact chainSlot_pruned b rest v .nil rfl
  | .cval b' w tail =>
    simp only [chPruned] at h
    by_cases hb : b = b'
    · subst hb
      cases rest with
      | nil => simpa [insertCh, chPruned] using h
      | cons c rest' =>
        simp [insertCh, chPruned, pruned, hasVal, h]
        exact chainSlot_pruned c rest' v .nil rfl
    · by_cases hlt : b < b'
      · simp only [insertCh, if_neg hb, if_pos hlt]
        exact chainSlot_pruned b rest v (.cval b' w tail) (by simpa [chPruned] using h)
      · simp only [insertCh, if_neg hb, if_neg hlt]
        simp [chPruned, insertCh_pruned tail b rest v h]
  | .cnode b' m tail =>
    simp only [chPruned, Bool.and_eq_true] at h
    obtain ⟨⟨hv, hp⟩, hc⟩ := h
    by_cases hb : b = b'
    · subst hb
      simp [insertCh, chPruned, hc, insertNode_hasVal m rest v,
        insertNode_pruned m rest v hp]
    · by_cases hlt : b < b'
      · simp only [insertCh, if_neg hb, if_pos hlt]
        exact chainSlot_pruned b rest v (.cnode b' m tail)
          (by simp [chPruned, hv, hp, hc])
      · simp only [insertCh, if_neg hb, if_neg hlt]
        simp [chPruned, hv, hp, insertCh_pruned tail b rest v hc]
end

/-! ### Tree invariant preservation: erase -/

/-- No lookup can succeed below a strict lower bound on the occupied
    bytes. -/
theorem lookup_lb (ch : ChildList) (b : Nat) (r : List Nat)
    (hok : chOk ch = true) (hlb : ltFirst b ch = true) :
    lookupCh ch b r = none := by
  match ch with
  | .nil => simp [lookupCh]
  | .cval b' w tail =>
    simp only [chOk, Bool.and_eq_true] at hok
    simp only [ltFirst, decide_eq_true_eq] at hlb
    have hne : b ≠ b' := by omega
    simp only [lookupCh, if_neg hne]
    exact lookup_lb tail b r hok.2 (ltFirst_trans b b' tail hlb hok.1)
  | .cnode b' m tail =>
    simp only [chOk, Bool.and_eq_true] at hok
    simp only [ltFirst, decide_eq_true_eq] at hlb
    have hne : b ≠ b' := by omega
    simp only [lookupCh, if_neg hne]
    exact lookup_lb tail b r hok.2 (ltFirst_trans b b' tail hlb hok.1.1)

/-- Every occupied byte sits above a strict lower bound. -/
theorem bmem_lb (ch : ChildList) (x b : Nat)
    (hok : chOk ch = true) (hlb : ltFirst x ch = true) (hm : bmem b ch = true) :
    x < b := by
  match ch with
  | .nil => simp [bmem] at hm
  | .cval b' w tail =>
    simp only [chOk, Bool.and_eq_true] at hok
    simp only [ltFirst, decide_eq_true_eq] at hlb
    simp only [bmem, Bool.or_eq_true, beq_iff_eq] at hm
    rcases hm with hm | hm
    · omega
    · exact bmem_lb tail x b hok.2 (ltFirst_trans x b' tail hlb hok.1) hm
  | .cnode b' m tail =>
    simp only [chOk, Bool.and_eq_true] at hok
    simp only [ltFirst, decide_eq_true_eq] at hlb
    simp only [bmem, Bool.or_eq_true, beq_iff_eq] at hm
    rcases hm with hm | hm
    · omega
    · exact bmem_lb tail x b hok.2 (ltFirst_trans x b' tail hlb hok.1.1) hm

/-- Re-attachment keeps strict lower bounds. -/
theorem reattach_ltFirst (x b : Nat) (n : PTNode) (tail : ChildList)
    (hxb : x < b) (ht : ltFirst x tail = true) :
    ltFirst x (reattach b n tail) = true := by
  match n with
  | .mk none .nil => simpa [reattach] using ht
  | .mk (some w) .nil => simp [reattach, ltFirst, hxb]
  | .mk ov (.cval c w ctail) => simp [reattach, ltFirst, hxb]
  | .mk ov (.cnode c m ctail) => simp [reattach, ltFirst, hxb]

/-- Re-attachment preserves the byte-ordering invariant. -/
theorem reattach_chOk (b : Nat) (n : PTNode) (tail : ChildList)
    (hn : nodeOk n = true) (ht : chOk tail = true) (hf : ltFirst b tail = true) :
    chOk (reattach b n tail) = true := by
  match n with
  | .mk none .nil => simpa [reattach] using ht
  | .mk (some w) .nil => simp [reattach, chOk, ht, hf]
  | .mk ov (.cval c w ctail) =>
    simp only [nodeOk, chOk, Bool.and_eq_true] at hn
    simp [reattach, chOk, nodeOk, ht, hf, hn.1, hn.2]
  | .mk ov (.cnode c m ctail) =>
    simp only [nodeOk, chOk, Bool.and_eq_true] at hn
    simp [reattach, chOk, nodeOk, ht, hf, hn.1.1, hn.1.2, hn.2]

/-- Re-attachment preserves the compaction invariant. -/
theorem reattach_chPruned (b : Nat) (n : PTNode) (tail : ChildList)
    (hn : pruned n = true) (ht : chPruned tail = true) :
    chPruned (reattach b n tail) = true := by
  match n with
  | .mk none .nil => simpa [reattach] using ht
  | .mk (some w) .nil => simp [reattach, chPruned, ht]
  | .mk ov (.cval c w ctail) =>
    simp only [pruned, chPruned] at hn
    simp [reattach, chPruned, pruned, hasVal, chHasVal, ht, hn]
  | .mk ov (.cnode c m ctail) =>
    simp only [pruned, chPruned, Bool.and_eq_true] at hn
    simp [reattach, chPruned, pruned, hasVal, chHasVal, ht, hn.1.1, hn.1.2, hn.2]

/-- Re-attachment stores exactly the keys of the node and the tail. -/
theorem reattach_count (b : Nat) (n : PTNode) (tail : ChildList) :
    chCountValues (reattach b n tail) = countValues n + chCountValues tail := by
  match n with
  | .mk none .nil => simp [reattach, countValues, chCountValues]
  | .mk (some w) .nil => simp [reattach, countValues, chCountValues]
  | .mk ov (.cval c w ctail) => simp [reattach, countValues, chCountValues]
  | .mk ov (.cnode c m ctail) => simp [reattach, countValues, chCountValues]

/-- Looking up the re-attachment byte reads the re-attached node. -/
theorem reattach_lookup_self (b : Nat) (n : PTNode) (tail : ChildList)
    (r : List Nat) (ht : chOk tail = true) (hf : ltFirst b tail = true) :
    lookupCh (reattach b n tail) b r = lookupNode n r := by
  match n with
  | .mk none .nil =>
    rw [show reattach b (.mk none .nil) tail = tail from rfl,
      lookup_lb tail b r ht hf]
    cases r <;> simp [lookupNode, lookupCh]
  | .mk (some w) .nil =>
    cases r <;> simp [reattach, lookupNode, lookupCh]
  | .mk ov (.cval c w ctail) => simp [reattach, lookupCh]
  | .mk ov (.cnode c m ctail) => simp [reattach, lookupCh]

/-- Looking up any other byte ignores the re-attached node. -/
theorem reattach_lookup_other (b b' : Nat) (n : PTNode) (tail : ChildList)
    (r : List Nat) (hne : b' ≠ b) :
    lookupCh (reattach b n tail) b' r = lookupCh tail b' r := by
  match n with
  | .mk none .nil => rfl
  | .mk (some w) .nil => simp [reattach, lookupCh, hne]
  | .mk ov (.cval c w ctail) => simp [reattach, lookupCh, hne]
  | .mk ov (.cnode c m ctail) => simp [reattach, lookupCh, hne]

/-- Erasing below a strict lower bound keeps the bound. -/
theorem eraseCh_lb (ch : ChildList) (x b : Nat) (rest : List Nat)
    (hok : chOk ch = true) (hlb : ltFirst x ch = true) :
    ltFirst x (eraseCh ch b rest).1 = true := by
  match ch with
  | .nil => simpa [eraseCh] using hlb
  | .cval b' w tail =>
    simp only [chOk, Bool.and_eq_true] at hok
    simp only [ltFirst, decide_eq_true_eq] at hlb
    by_cases hb : b = b'
    · subst hb
      cases rest with
      | nil =>
        simp only [eraseCh, if_pos rfl]
        exact ltFirst_trans x b tail hlb hok.1
      | cons c r' => simp [eraseCh, ltFirst, hlb]
    · simp [eraseCh, hb, ltFirst, hlb]
  | .cnode b' m tail =>
    simp only [chOk, Bool.and_eq_true] at hok
    simp only [ltFirst, decide_eq_true_eq] at hlb
    by_cases hb : b = b'
    · subst hb
      simp only [eraseCh, if_pos rfl]
      exact reattach_ltFirst x b (eraseNode m rest).1 tail hlb
        (ltFirst_trans x b tail hlb hok.1.1)
    · simp [eraseCh, hb, ltFirst, hlb]

mutual
/-- Erasure preserves the byte-ordering invariant. -/
theorem eraseNode_ok (t : PTNode) (k : List Nat)
    (h : nodeOk t = true) : nodeOk (eraseNode t k).1 = true := by
  match t, k with
  | .mk ov ch, [] => simpa [eraseNode, nodeOk] using h
  | .mk ov ch, b :: rest =>
    simp only [eraseNode, nodeOk] at h ⊢
    exact eraseCh_ok ch b rest h
/-- Child-array part of `eraseNode_ok`. -/
theorem eraseCh_ok (ch : ChildList) (b : Nat) (rest : List Nat)
    (h : chOk ch = true) : chOk (eraseCh ch b rest).1 = true := by
  match ch with
  | .nil => simpa [eraseCh] using h
  | .cval b' w tail =>
    simp only [chOk, Bool.and_eq_true] at h
    obtain ⟨hf, hc⟩ := h
    by_cases hb : b = b'
    · subst hb
      cases rest with
      | nil => simpa [eraseCh] using hc
      | cons c r' => simp [eraseCh, chOk, hf, hc]
    · simp [eraseCh, hb, chOk, eraseCh_lb tail b' b rest hc hf,
        eraseCh_ok tail b rest hc]
  | .cnode b' m tail =>
    simp only [chOk, Bool.and_eq_true] at h
    obtain ⟨⟨hf, hm⟩, hc⟩ := h
    by_cases hb : b = b'
    · subst hb
      simp only [eraseCh, if_pos rfl]
      exact reattach_chOk b (eraseNode m rest).1 tail
        (eraseNode_ok m rest hm) hc hf
    · simp [eraseCh, hb, chOk, hm, eraseCh_lb tail b' b rest hc hf,
        eraseCh_ok tail b rest hc]
end

mutual
/-- Erasure preserves the compaction invariant. -/
theorem eraseNode_pruned (t : PTNode) (k : List Nat)
    (h : pruned t = true) : pruned (eraseNode t k).1 = true := by
  match t, k with
  | .mk ov ch, [] => simpa [eraseNode, pruned] using h
  | .mk ov ch, b :: rest =>
    simp only [eraseNode, pruned] at h ⊢
    exact eraseCh_pruned ch b rest h
/-- Child-array part of `eraseNode_pruned`. -/
theorem eraseCh_pruned (ch : ChildList) (b : Nat) (rest : List Nat)
    (h : chPruned ch = true) : chPruned (eraseCh ch b rest).1 = true := by
  match ch with
  | .nil => simpa [eraseCh] using h
  | .cval b' w tail =>
    simp only [chPruned] at h
    by_cases hb : b = b'
    · subst hb
      cases rest with
      | nil => simpa [eraseCh] using h
      | cons c r' => simpa [eraseCh, chPruned] using h
    · simp [eraseCh, hb, chPruned, eraseCh_pruned tail b rest h]
  | .cnode b' m tail =>
    simp only [chPruned, Bool.and_eq_true] at h
    obtain ⟨⟨hv, hp⟩, hc⟩ := h
    by_cases hb : b = b'
    · subst hb
      simp only [eraseCh, if_pos rfl]
      exact reattach_chPruned b (eraseNode m rest).1 tail
        (eraseNode_pruned m rest hp) hc
    · simp [eraseCh, hb, chPruned, hv, hp, eraseCh_pruned tail b rest hc]
end

mutual
/-- Erasing a present key removes exactly one stored value. -/
theorem eraseNode_count (t : PTNode) (k : List Nat)
    (h : (lookupNode t k).isSome = true) :
    countValues t = countValues (eraseNode t k).1 + 1 := by
  match t, k with
  | .mk ov ch, [] =>
    simp only [lookupNode] at h
    simp [eraseNode, countValues, h, Nat.add_comm]
  | .mk ov ch, b :: rest =>
    simp only [lookupNode] at h
    simp only [eraseNode, countValues]
    have := eraseCh_count ch b rest h
    omega
/-- Child-array part of `eraseNode_count`. -/
theorem eraseCh_count (ch : ChildList) (b : Nat) (rest : List Nat)
    (h : (lookupCh ch b rest).isSome = true) :
    chCountValues ch = chCountValues (eraseCh ch b rest).1 + 1 := by
  match ch with
  | .nil => simp [lookupCh] at h
  | .cval b' w tail =>
    by_cases hb : b = b'
    · subst hb
      cases rest with
      | nil => simp [eraseCh, chCountValues, Nat.add_comm]
      | cons c r' => simp [lookupCh] at h
    · simp only [lookupCh, if_neg hb] at h
      have := eraseCh_count tail b rest h
      simp only [eraseCh, if_neg hb, chCountValues]
      omega
  | .cnode b' m tail =>
    by_cases hb : b = b'
    · subst hb
      simp only [lookupCh, eq_self_iff_true, if_true] at h
      have := eraseNode_count m rest h
      simp only [eraseCh, eq_self_iff_true, if_true, chCountValues, reattach_count]
      omega
    · simp only [lookupCh, if_neg hb] at h
      have := eraseCh_count tail b rest h
      simp only [eraseCh, if_neg hb, chCountValues]
      omega
end

mutual
/-- Erasing one key leaves every other key's lookup unchanged. -/
theorem eraseNode_lookup_other (t : PTNode) (k k' : List Nat)
    (hok : nodeOk t = true) (hne : k' ≠ k) :
    lookupNode (eraseNode t k).1 k' = lookupNode t k' := by
  match t, k with
  | .mk ov ch, [] =>
    match k' with
    | [] => exact absurd rfl hne
    | c :: r => simp [eraseNode, lookupNode]
  | .mk ov ch, b :: rest =>
    match k' with
    | [] => simp [eraseNode, lookupNode]
    | b' :: rest' =>
      simp only [eraseNode, lookupNode]
      have hor : b' ≠ b ∨ rest' ≠ rest := by
        by_cases hbb : b' = b
        · subst hbb
          exact Or.inr (fun he => hne (by rw [he]))
        · exact Or.inl hbb
      exact eraseCh_lookup_other ch b rest b' rest' (by simpa [nodeOk] using hok) hor
/-- Child-array part of `eraseNode_lookup_other`. -/
theorem eraseCh_lookup_other (ch : ChildList) (b : Nat) (rest : List Nat)
    (b' : Nat) (rest' : List Nat) (hok : chOk ch = true)
    (hne : b' ≠ b ∨ rest' ≠ rest) :
    lookupCh (eraseCh ch b rest).1 b' rest' = lookupCh ch b' rest' := by
  match ch with
  | .nil => simp [eraseCh]
  | .cval b₀ w tail =>
    simp only [chOk, Bool.and_eq_true] at hok
    obtain ⟨hf, hc⟩ := hok
    by_cases hb : b = b₀
    · subst hb
      cases rest with
      | nil =>
        simp only [eraseCh, eq_self_iff_true, if_true]
        by_cases hbb : b' = b
        · subst hbb
          have hr : rest' ≠ [] := by
            rcases hne with hne | hne
            · exact absurd rfl hne
            · exact hne
          rw [lookup_lb tail b' rest' hc hf]
          simp [lookupCh, hr]
        · simp [lookupCh, hbb]
      | cons c r' => simp [eraseCh]
    · simp only [eraseCh, if_neg hb]
      by_cases hbb : b' = b₀
      · simp [lookupCh, hbb]
      · simp only [lookupCh, if_neg hbb]
        exact eraseCh_lookup_other tail b rest b' rest' hc hne
  | .cnode b₀ m tail =>
    simp only [chOk, Bool.and_eq_true] at hok
    obtain ⟨⟨hf, hm⟩, hc⟩ := hok
    by_cases hb : b = b₀
    · subst hb
      simp only [eraseCh, eq_self_iff_true, if_true]
      by_cases hbb : b' = b
      · subst hbb
        have hr : rest' ≠ rest := by
          rcases hne with hne | hne
          · exact absurd rfl hne
          · exact hne
        rw [reattach_lookup_self b' (eraseNode m rest).1 tail rest' hc hf]
        rw [eraseNode_lookup_other m rest rest' hm hr]
        simp [lookupCh]
      · rw [reattach_lookup_other b b' (eraseNode m rest).1 tail rest' hbb]
        simp [lookupCh, hbb]
    · simp only [eraseCh, if_neg hb]
      by_cases hbb : b' = b₀
      · simp [lookupCh, hbb]
      · simp only [lookupCh, if_neg hbb]
        exact eraseCh_lookup_other tail b rest b' rest' hc hne
end

/-! ### Structural consequences of the invariants -/

mutual
/-- A subtree that stores a value counts at least one key. -/
theorem hasVal_count (t : PTNode) (h : hasVal t = true) : 1 ≤ countValues t := by
  match t with
  | .mk ov ch =>
    simp only [hasVal, Bool.or_eq_true] at h
    rcases h with h | h
    · simp [countValues, h]
    · have := chHasVal_count ch h
      simp only [countValues]
      omega
/-- Child-array part of `hasVal_count`. -/
theorem chHasVal_count (ch : ChildList) (h : chHasVal ch = true) :
    1 ≤ chCountValues ch := by
  match ch with
  | .nil => simp [chHasVal] at h
  | .cval b w tail => simp [chCountValues]
  | .cnode b m tail =>
    simp only [chHasVal, Bool.or_eq_true] at h
    simp only [chCountValues]
    rcases h with h | h
    · have := hasVal_count m h
      omega
    · have := chHasVal_count tail h
      omega
end

/-- A compacted subtree with no keys is the bare empty node. -/
theorem emptyNode_of_pruned (t : PTNode) (hc : countValues t = 0)
    (hp : pruned t = true) : t = emptyNode := by
  match t with
  | .mk ov ch =>
    simp only [countValues, Nat.add_eq_zero] at hc
    have hov : ov = none := by
      cases ov
      · rfl
      · simp at hc
    subst hov
    match ch with
    | .nil => rfl
    | .cval b w tail => simp [chCountValues] at hc
    | .cnode b m tail =>
      simp only [pruned, chPruned, Bool.and_eq_true] at hp
      have := hasVal_count m hp.1.1
      simp only [chCountValues] at hc
      omega

/-- Every tree has at least its root node. -/
theorem nodeSize_pos (t : PTNode) : 1 ≤ nodeSize t := by
  match t with
  | .mk ov ch => simp [nodeSize]

/-! ### Lookup after insert -/

/-- A freshly built chain stores the inserted value at its key. -/
theorem chainSlot_lookup (b : Nat) (rest : List Nat) (v : Value) (tail : ChildList) :
    lookupCh (chainSlot b rest v tail) b rest = some v := by
  induction rest generalizing b tail with
  | nil => simp [chainSlot, lookupCh]
  | cons c rest ih => simp [chainSlot, lookupCh, lookupNode, ih c .nil]

mutual
/-- `at(k)` after `insert(k, v)` returns `v`. -/
theorem insertNode_lookup (t : PTNode) (k : List Nat) (v : Value) :
    lookupNode (insertNode t k v) k = some v := by
  match t, k with
  | .mk ov ch, [] => simp [insertNode, lookupNode]
  | .mk ov ch, b :: rest =>
    simp only [insertNode, lookupNode]
    exact insertCh_lookup ch b rest v
/-- Child-array part of `insertNode_lookup`. -/
theorem insertCh_lookup (ch : ChildList) (b : Nat) (rest : List Nat) (v : Value) :
    lookupCh (insertCh ch b rest v) b rest = some v := by
  match ch with
  | .nil =>
    simp only [insertCh]
    exact chainSlot_lookup b rest v .nil
  | .cval b' w tail =>
    by_cases hb : b = b'
    · subst hb
      cases rest with
      | nil => simp [insertCh, lookupCh]
      | cons c r' =>
        simp [insertCh, lookupCh, lookupNode, chainSlot_lookup c r' v .nil]
    · by_cases hlt : b < b'
      · simp only [insertCh, if_neg hb, if_pos hlt]
        exact chainSlot_lookup b rest v (.cval b' w tail)
      · simp only [insertCh, if_neg hb, if_neg hlt, lookupCh, if_neg hb]
        exact insertCh_lookup tail b rest v
  | .cnode b' m tail =>
    by_cases hb : b = b'
    · subst hb
      simp [insertCh, lookupCh, insertNode_lookup m rest v]
    · by_cases hlt : b < b'
      · simp only [insertCh, if_neg hb, if_pos hlt]
        exact chainSlot_lookup b rest v (.cnode b' m tail)
      · simp only [insertCh, if_neg hb, if_neg hlt, lookupCh, if_neg hb]
        exact insertCh_lookup tail b rest v
end

/-! ### Lexicographic key order -/

/-- Lex order is preserved under a common left factor. -/
theorem keyLt_append (p l1 l2 : List Nat) (h : List.Lex (· < ·) l1 l2) :
    List.Lex (· < ·) (p ++ l1) (p ++ l2) := by
  induction p with
  | nil => simpa using h
  | cons a p ih => exact List.Lex.cons ih

/-- A key precedes every strict extension of itself. -/
theorem keyLt_self_cons (p : List Nat) (b : Nat) (s : List Nat) :
    keyLt p (p ++ b :: s) := by
  have h := keyLt_append p [] (b :: s) List.Lex.nil
  simpa [keyLt] using h

/-- Keys branching on distinct bytes compare by those bytes. -/
theorem keyLt_cons_lt (p : List Nat) (b b' : Nat) (s s' : List Nat)
    (h : b < b') : keyLt (p ++ b :: s) (p ++ b' :: s') :=
  keyLt_append p (b :: s) (b' :: s') (List.Lex.rel h)

/-- Lex order on byte strings is irreflexive. -/
theorem keyLt_irrefl (k : List Nat) : ¬ keyLt k k := by
  induction k with
  | nil => intro h; cases h
  | cons a l ih =>
    intro h
    cases h with
    | cons h => exact ih h
    | rel h => omega

/-! ### The reachability invariant -/

/-- Erasing a list of keys preserves both invariants. -/
theorem eraseList_ok_pruned (ks : List (List Nat)) :
    ∀ t : PTNode, nodeOk t = true → pruned t = true →
      nodeOk (eraseList t ks) = true ∧ pruned (eraseList t ks) = true := by
  induction ks with
  | nil => exact fun t h1 h2 => ⟨h1, h2⟩
  | cons k ks ih =>
    intro t h1 h2
    exact ih (eraseNode t k).1 (eraseNode_ok t k h1) (eraseNode_pruned t k h2)

/-- Every reachable tree is byte-ordered and compacted. -/
theorem TReach_inv (t : PTNode) (h : TReach t) :
    nodeOk t = true ∧ pruned t = true := by
  induction h with
  | empty => exact ⟨rfl, rfl⟩
  | ins t k v _ ih =>
    exact ⟨insertNode_ok t k v ih.1, insertNode_pruned t k v ih.2⟩
  | ers t k _ ih =>
    exact ⟨eraseNode_ok t k ih.1, eraseNode_pruned t k ih.2⟩
  | incrI t k d _ ih =>
    cases hl : lookupNode t k with
    | none =>
      simp only [incrInt, hl]
      exact ⟨insertNode_ok t k _ ih.1, insertNode_pruned t k _ ih.2⟩
    | some v =>
      cases v <;> simp only [incrInt, hl] <;>
        first
          | exact ih
          | exact ⟨insertNode_ok t k _ ih.1, insertNode_pruned t k _ ih.2⟩
  | incrD t k d _ ih =>
    cases hl : lookupNode t k with
    | none =>
      simp only [incrDbl, hl]
      exact ⟨insertNode_ok t k _ ih.1, insertNode_pruned t k _ ih.2⟩
    | some v =>
      cases v <;> simp only [incrDbl, hl] <;>
        first
          | exact ih
          | exact ⟨insertNode_ok t k _ ih.1, insertNode_pruned t k _ ih.2⟩
  | clear t _ ih =>
    exact eraseList_ok_pruned (keysOf t) t ih.1 ih.2

/-! ### Iteration: shape, completeness and order -/

mutual
/-- Every key yielded below a node extends that node's path. -/
theorem iterNode_shape (t : PTNode) (p q : List Nat) (w : Value)
    (h : (q, w) ∈ iterNode t p) : ∃ s, q = p ++ s := by
  match t with
  | .mk ov ch =>
    simp only [iterNode, List.mem_append] at h
    rcases h with h | h
    · cases ov with
      | none => simp at h
      | some v =>
        simp only [List.mem_singleton, Prod.mk.injEq] at h
        exact ⟨[], by simp [h.1]⟩
    · obtain ⟨b, s, hq, _⟩ := iterCh_shape ch p q w h
      exact ⟨b :: s, hq⟩
/-- Every key yielded from a child array passes through one of its
    occupied bytes. -/
theorem iterCh_shape (ch : ChildList) (p q : List Nat) (w : Value)
    (h : (q, w) ∈ iterCh ch p) : ∃ b s, q = p ++ b :: s ∧ bmem b ch = true := by
  match ch with
  | .nil => simp [iterCh] at h
  | .cval b₀ w₀ tail =>
    simp only [iterCh, List.mem_cons] at h
    rcases h with h | h
    · simp only [Prod.mk.injEq] at h
      exact ⟨b₀, [], by simp [h.1], by simp [bmem]⟩
    · obtain ⟨b, s, hq, hm⟩ := iterCh_shape tail p q w h
      exact ⟨b, s, hq, by simp [bmem, hm]⟩
  | .cnode b₀ m tail =>
    simp only [iterCh, List.mem_append] at h
    rcases h with h | h
    · obtain ⟨s, hq⟩ := iterNode_shape m (p ++ [b₀]) q w h
      exact ⟨b₀, s, by simp [hq], by simp [bmem]⟩
    · obtain ⟨b, s, hq, hm⟩ := iterCh_shape tail p q w h
      exact ⟨b, s, hq, by simp [bmem, hm]⟩
end

mutual
/-- Iteration below a node yields exactly the pairs its lookup stores. -/
theorem iterNode_mem (t : PTNode) (p q : List Nat) (w : Value)
    (hok : nodeOk t = true) :
    (q, w) ∈ iterNode t p ↔ ∃ s, q = p ++ s ∧ lookupNode t s = some w := by
  match t with
  | .mk ov ch =>
    simp only [nodeOk] at hok
    constructor
    · intro h
      simp only [iterNode, List.mem_append] at h
      rcases h with h | h
      · cases ov with
        | none => simp at h
        | some v =>
          simp only [List.mem_singleton, Prod.mk.injEq] at h
          exact ⟨[], by simp [h.1], by simp [lookupNode, h.2]⟩
      · obtain ⟨b, s, hq, hl⟩ := (iterCh_mem ch p q w hok).mp h
        exact ⟨b :: s, hq, by simpa [lookupNode] using hl⟩
    · rintro ⟨s, hq, hl⟩
      simp only [iterNode, List.mem_append]
      match s, hl with
      | [], hl =>
        simp only [lookupNode] at hl
        subst hl
        left
        simp [hq]
      | b :: s', hl =>
        simp only [lookupNode] at hl
        exact Or.inr ((iterCh_mem ch p q w hok).mpr ⟨b, s', hq, hl⟩)
/-- Child-array part of `iterNode_mem`. -/
theorem iterCh_mem (ch : ChildList) (p q : List Nat) (w : Value)
    (hok : chOk ch = true) :
    (q, w) ∈ iterCh ch p ↔ ∃ b s, q = p ++ b :: s ∧ lookupCh ch b s = some w := by
  match ch with
  | .nil => simp [iterCh, lookupCh]
  | .cval b₀ w₀ tail =>
    simp only [chOk, Bool.and_eq_true] at hok
    obtain ⟨hf, hc⟩ := hok
    constructor
    · intro h
      simp only [iterCh, List.mem_cons] at h
      rcases h with h | h
      · simp only [Prod.mk.injEq] at h
        exact ⟨b₀, [], by simp [h.1], by simp [lookupCh, h.2]⟩
      · obtain ⟨b, s, hq, hl⟩ := (iterCh_mem tail p q w hc).mp h
        have hne : b ≠ b₀ := by
          intro he
          subst he
          rw [lookup_lb tail b s hc hf] at hl
          exact Option.noConfusion hl
        exact ⟨b, s, hq, by simpa [lookupCh, hne] using hl⟩
    · rintro ⟨b, s, hq, hl⟩
      simp only [iterCh, List.mem_cons]
      by_cases hb : b = b₀
      · subst hb
        simp only [lookupCh, eq_self_iff_true, if_true] at hl
        cases s with
        | nil =>
          simp only [if_pos rfl] at hl
          left
          simp only [Prod.mk.injEq]
          exact ⟨by simpa using hq, by simpa using hl.symm⟩
        | cons s₁ s₂ => simp at hl
      · exact Or.inr ((iterCh_mem tail p q w hc).mpr
          ⟨b, s, hq, by simpa [lookupCh, hb] using hl⟩)
  | .cnode b₀ m tail =>
    simp only [chOk, Bool.and_eq_true] at hok
    obtain ⟨⟨hf, hm⟩, hc⟩ := hok
    constructor
    · intro h
      simp only [iterCh, List.mem_append] at h
      rcases h with h | h
      · obtain ⟨s, hq, hl⟩ := (iterNode_mem m (p ++ [b₀]) q w hm).mp h
        refine ⟨b₀, s, ?_, ?_⟩
        · simpa [List.append_assoc] using hq
        · simp [lookupCh, hl]
      · obtain ⟨b, s, hq, hl⟩ := (iterCh_mem tail p q w hc).mp h
        have hne : b ≠ b₀ := by
          intro he
          subst he
          rw [lookup_lb tail b s hc hf] at hl
          exact Option.noConfusion hl
        exact ⟨b, s, hq, by simpa [lookupCh, hne] using hl⟩
    · rintro ⟨b, s, hq, hl⟩
      simp only [iterCh, List.mem_append]
      by_cases hb : b = b₀
      · subst hb
        simp only [lookupCh, eq_self_iff_true, if_true] at hl
        exact Or.inl ((iterNode_mem m (p ++ [b]) q w hm).mpr
          ⟨s, by simpa [List.append_assoc] using hq, hl⟩)
      · exact Or.inr ((iterCh_mem tail p q w hc).mpr
          ⟨b, s, hq, by simpa [lookupCh, hb] using hl⟩)
end

mutual
/-- Iteration yields keys in strictly ascending lexicographic order. -/
theorem iterNode_pairwise (t : PTNode) (p : List Nat) (hok : nodeOk t = true) :
    List.Pairwise (fun a b : List Nat × Value => keyLt a.1 b.1) (iterNode t p) := by
  match t with
  | .mk ov ch =>
    simp only [nodeOk] at hok
    simp only [iterNode]
    rw [List.pairwise_append]
    refine ⟨?_, iterCh_pairwise ch p hok, ?_⟩
    · cases ov <;> simp
    · intro a ha y hy
      cases ov with
      | none => simp at ha
      | some v =>
        simp only [List.mem_singleton] at ha
        subst ha
        obtain ⟨b, s, hq, _⟩ := iterCh_shape ch p y.1 y.2 (by simpa using hy)
        show keyLt p y.1
        rw [hq]
        exact keyLt_self_cons p b s
/-- Child-array part of `iterNode_pairwise`. -/
theorem iterCh_pairwise (ch : ChildList) (p : List Nat) (hok : chOk ch = true) :
    List.Pairwise (fun a b : List Nat × Value => keyLt a.1 b.1) (iterCh ch p) := by
  match ch with
  | .nil => simp [iterCh]
  | .cval b₀ w₀ tail =>
    simp only [chOk, Bool.and_eq_true] at hok
    obtain ⟨hf, hc⟩ := hok
    simp only [iterCh]
    refine List.Pairwise.cons ?_ (iterCh_pairwise tail p hc)
    intro y hy
    obtain ⟨b, s, hq, hm⟩ := iterCh_shape tail p y.1 y.2 (by simpa using hy)
    have hlt : b₀ < b := bmem_lb tail b₀ b hc hf hm
    show keyLt (p ++ [b₀]) y.1
    rw [hq]
    exact keyLt_cons_lt p b₀ b [] s hlt
  | .cnode b₀ m tail =>
    simp only [chOk, Bool.and_eq_true] at hok
    obtain ⟨⟨hf, hm⟩, hc⟩ := hok
    simp only [iterCh]
    rw [List.pairwise_append]
    refine ⟨iterNode_pairwise m (p ++ [b₀]) hm, iterCh_pairwise tail p hc, ?_⟩
    intro x hx y hy
    obtain ⟨s₀, hx1⟩ := iterNode_shape m (p ++ [b₀]) x.1 x.2 (by simpa using hx)
    obtain ⟨b, s, hy1, hmem⟩ := iterCh_shape tail p y.1 y.2 (by simpa using hy)
    have hlt : b₀ < b := bmem_lb tail b₀ b hc hf hmem
    show keyLt x.1 y.1
    rw [hx1, hy1, List.append_assoc]
    exact keyLt_cons_lt p b₀ b s₀ s hlt
end

/-! ### Clearing a tree empties it -/

mutual
/-- The stored-key count equals the length of the iteration. -/
theorem countValues_eq_len (t : PTNode) (p : List Nat) :
    countValues t = (iterNode t p).length := by
  match t with
  | .mk ov ch =>
    cases ov <;>
      simp [countValues, iterNode, chCountValues_eq_len ch p, Nat.add_comm]
/-- Child-array part of `countValues_eq_len`. -/
theorem chCountValues_eq_len (ch : ChildList) (p : List Nat) :
    chCountValues ch = (iterCh ch p).length := by
  match ch with
  | .nil => simp [chCountValues, iterCh]
  | .cval b w tail =>
    simp [chCountValues, iterCh, chCountValues_eq_len tail p, Nat.add_comm]
  | .cnode b m tail =>
    simp [chCountValues, iterCh, chCountValues_eq_len tail p,
      countValues_eq_len m (p ++ [b])]
end

/-- Erasing a duplicate-free list of present keys, as many as there are
    stored values, leaves no stored value. -/
theorem eraseList_empty (ks : List (List Nat)) :
    ∀ t : PTNode, nodeOk t = true → ks.Nodup →
      (∀ k ∈ ks, (lookupNode t k).isSome = true) →
      countValues t = ks.length →
      countValues (eraseList t ks) = 0 := by
  induction ks with
  | nil =>
    intro t _ _ _ hc
    simpa [eraseList] using hc
  | cons k ks ih =>
    intro t hok hnd hall hc
    obtain ⟨hkn, hnd'⟩ := List.nodup_cons.mp hnd
    simp only [eraseList]
    apply ih (eraseNode t k).1 (eraseNode_ok t k hok) hnd'
    · intro k' hk'
      have hne : k' ≠ k := fun he => hkn (he ▸ hk')
      rw [eraseNode_lookup_other t k k' hok hne]
      exact hall k' (List.mem_cons_of_mem k hk')
    · have h1 := eraseNode_count t k (hall k (List.mem_cons_self k ks))
      simp only [List.length_cons] at hc
      omega

/-- On a well-formed compacted tree, `clear()` returns the tree to the
    bare empty node. -/
theorem clearTree_empty (t : PTNode) (hok : nodeOk t = true)
    (hp : pruned t = true) : clearTree t = emptyNode := by
  apply emptyNode_of_pruned
  · apply eraseList_empty (keysOf t) t hok
    · have hpw := iterNode_pairwise t [] hok
      have hkeys : List.Pairwise (fun a b : List Nat => keyLt a b) (keysOf t) := by
        simpa [keysOf, List.pairwise_map] using hpw
      exact hkeys.imp fun h he => absurd (he ▸ h) (keyLt_irrefl _)
    · intro k hk
      simp only [keysOf, List.mem_map] at hk
      obtain ⟨pair, hpair, hfst⟩ := hk
      obtain ⟨s, hq, hl⟩ := (iterNode_mem t [] pair.1 pair.2 hok).mp
        (by simpa using hpair)
      simp only [List.nil_append] at hq
      rw [← hfst, hq, hl]
      rfl
    · rw [countValues_eq_len t [], keysOf, List.length_map]
  · exact (eraseList_ok_pruned (keysOf t) t hok hp).2

/-! ### Claims about the tree -/

/-- C3, counterexample: inserting only the empty key gives a reachable
    tree with `node_size() = 1` but `size() = 1 ≠ 0` (the value lives on
    the root), refuting the claimed equivalence. -/
theorem C3_counterexample :
    TReach onlyEmptyKey ∧ nodeSize onlyEmptyKey = 1 ∧ countValues onlyEmptyKey ≠ 0 :=
  ⟨TReach.ins emptyNode [] (.str [120]) TReach.empty, by decide, by decide⟩

/-- C3, amended: on every reachable tree `node_size() ≥ 1`, and an empty
    tree has `node_size() = 1`; the converse implication fails because
    values stored on the root and directly in the root's child slots add
    no nodes. -/
theorem C3_node_size (t : PTNode) (h : TReach t) :
    1 ≤ nodeSize t ∧ (countValues t = 0 → nodeSize t = 1) := by
  refine ⟨nodeSize_pos t, fun hc => ?_⟩
  rw [emptyNode_of_pruned t hc (TReach_inv t h).2]
  rfl

/-- C3, amended, witness at the reachable state `s2t3`. -/
theorem C3_node_size_witness :
    1 ≤ nodeSize s2t3 ∧ (countValues s2t3 = 0 → nodeSize s2t3 = 1) :=
  C3_node_size s2t3
    (TReach.ers s2t2 [97, 98, 99]
      (TReach.ins s2t1 [97, 98] (.str [97, 98])
        (TReach.ins emptyNode [97, 98, 99] (.str [97, 98, 99]) TReach.empty)))

/-- C6: on every reachable tree, `clear()` yields exactly a freshly
    created tree — `size() = 0`, `node_size() = 1`, and any structure-held
    allocator accounting returns to its initial value, whatever the
    baseline and per-node cost. -/
theorem C6_clear (base nodeCost : Nat) (t : PTNode) (h : TReach t) :
    clearTree t = emptyNode ∧ countValues (clearTree t) = 0 ∧
      nodeSize (clearTree t) = 1 ∧
      treeBA base nodeCost (clearTree t) = treeBA base nodeCost emptyNode := by
  obtain ⟨hok, hp⟩ := TReach_inv t h
  have he := clearTree_empty t hok hp
  rw [he]
  exact ⟨rfl, rfl, rfl, rfl⟩

/-- C6, witness at the reachable state `s2t2`. -/
theorem C6_clear_witness :
    clearTree s2t2 = emptyNode ∧ countValues (clearTree s2t2) = 0 ∧
      nodeSize (clearTree s2t2) = 1 ∧
      treeBA 11 13 (clearTree s2t2) = treeBA 11 13 emptyNode :=
  C6_clear 11 13 s2t2
    (TReach.ins s2t1 [97, 98] (.str [97, 98])
      (TReach.ins emptyNode [97, 98, 99] (.str [97, 98, 99]) TReach.empty))

/-- C7: `incr` creates an absent key with the delta and returns it, adds
    to a stored integer (64-bit sum) and stores/returns the result, and
    fails with *TypeMismatch* — tree unchanged — when the stored value has
    any other type; likewise for the `f64` overload with respect to
    `Double` values. -/
theorem C7_incr (t : PTNode) (k : List Nat) (d x : Int) (q y : Rat) :
    (lookupNode t k = none →
      incrInt t k d = (insertNode t k (.int d), .ok d) ∧
      lookupNode (incrInt t k d).1 k = some (.int d)) ∧
    (lookupNode t k = some (.int x) →
      incrInt t k d = (insertNode t k (.int (wrap64 (x + d))), .ok (wrap64 (x + d))) ∧
      lookupNode (incrInt t k d).1 k = some (.int (wrap64 (x + d)))) ∧
    (∀ v : Value, lookupNode t k = some v → (∀ z : Int, v ≠ .int z) →
      incrInt t k d = (t, .error .typeMismatch)) ∧
    (lookupNode t k = none →
      incrDbl t k q = (insertNode t k (.dbl q), .ok q) ∧
      lookupNode (incrDbl t k q).1 k = some (.dbl q)) ∧
    (lookupNode t k = some (.dbl y) →
      incrDbl t k q = (insertNode t k (.dbl (y + q)), .ok (y + q)) ∧
      lookupNode (incrDbl t k q).1 k = some (.dbl (y + q))) ∧
    (∀ v : Value, lookupNode t k = some v → (∀ z : Rat, v ≠ .dbl z) →
      incrDbl t k q = (t, .error .typeMismatch)) := by
  refine ⟨?_, ?_, ?_, ?_, ?_, ?_⟩
  · intro hl
    simp [incrInt, hl, insertNode_lookup]
  · intro hl
    simp [incrInt, hl, insertNode_lookup]
  · intro v hl hv
    cases v with
    | int z => exact absurd rfl (hv z)
    | null => simp [incrInt, hl]
    | bool b => simp [incrInt, hl]
    | dbl z => simp [incrInt, hl]
    | str s => simp [incrInt, hl]
  · intro hl
    simp [incrDbl, hl, insertNode_lookup]
  · intro hl
    simp [incrDbl, hl, insertNode_lookup]
  · intro v hl hv
    cases v with
    | dbl z => exact absurd rfl (hv z)
    | null => simp [incrDbl, hl]
    | bool b => simp [incrDbl, hl]
    | int z => simp [incrDbl, hl]
    | str s => simp [incrDbl, hl]

/-- C7, witness: the six `incr` behaviours at concrete keys of `w7tree`
    (an integer at byte 97, a double at byte 98, a string at byte 99,
    nothing at byte 100). -/
theorem C7_incr_witness :
    incrInt w7tree [100] 7 = (insertNode w7tree [100] (.int 7), .ok 7) ∧
    incrInt w7tree [97] 3 =
      (insertNode w7tree [97] (.int (wrap64 (5 + 3))), .ok (wrap64 (5 + 3))) ∧
    incrInt w7tree [99] 3 = (w7tree, .error .typeMismatch) ∧
    incrDbl w7tree [100] 7 = (insertNode w7tree [100] (.dbl 7), .ok 7) ∧
    incrDbl w7tree [98] 3 =
      (insertNode w7tree [98] (.dbl (2 + 3)), .ok (2 + 3)) ∧
    incrDbl w7tree [97] 3 = (w7tree, .error .typeMismatch) :=
  ⟨((C7_incr w7tree [100] 7 0 0 0).1 (by rfl)).1,
   ((C7_incr w7tree [97] 3 5 0 0).2.1 (by rfl)).1,
   (C7_incr w7tree [99] 3 0 0 0).2.2.1 (.str [1]) (by rfl)
     (fun z h => Value.noConfusion h),
   ((C7_incr w7tree [100] 3 0 7 0).2.2.2.1 (by rfl)).1,
   ((C7_incr w7tree [98] 3 0 3 2).2.2.2.2.1 (by rfl)).1,
   (C7_incr w7tree [97] 3 0 3 0).2.2.2.2.2 (.int 5) (by rfl)
     (fun z h => Value.noConfusion h)⟩

/-- C8: the S2 reorganization scenario produces exactly the node counts
    asserted by src/PrefixTreeTest.cc — 3, 3, 2, (size +1, nodes
    unchanged), 4, 4, 5, 5, 5, 6, and 1 after `clear()`. -/
theorem C8_reorganization :
    nodeSize s2t1 = 3 ∧ countValues s2t1 = 1 ∧
    nodeSize s2t2 = 3 ∧ countValues s2t2 = 2 ∧
    nodeSize s2t3 = 2 ∧ countValues s2t3 = 1 ∧
    countValues s2t4 = countValues s2t3 + 1 ∧ nodeSize s2t4 = nodeSize s2t3 ∧
    nodeSize s2t5 = 4 ∧ nodeSize s2t6 = 4 ∧
    nodeSize s2t7 = 5 ∧ nodeSize s2t8 = 5 ∧ nodeSize s2t9 = 5 ∧
    nodeSize s2t10 = 6 ∧ nodeSize (clearTree s2t10) = 1 := by
  decide

/-- C9: on every reachable tree, iteration yields exactly the live
    (key, value) pairs — each present exactly once, since the keys are
    strictly ascending in lexicographic order. -/
theorem C9_iterate (t : PTNode) (h : TReach t) :
    (∀ (k : List Nat) (v : Value),
        (k, v) ∈ iterNode t [] ↔ lookupNode t k = some v) ∧
      List.Pairwise (fun a b : List Nat × Value => keyLt a.1 b.1) (iterNode t []) := by
  obtain ⟨hok, _⟩ := TReach_inv t h
  refine ⟨fun k v => ?_, iterNode_pairwise t [] hok⟩
  rw [iterNode_mem t [] k v hok]
  constructor
  · rintro ⟨s, hq, hl⟩
    simp only [List.nil_append] at hq
    rwa [hq]
  · intro hl
    exact ⟨k, by simp, hl⟩

/-- C9, witness at the reachable two-key tree `w9tree`. -/
theorem C9_iterate_witness :
    (∀ (k : List Nat) (v : Value),
        (k, v) ∈ iterNode w9tree [] ↔ lookupNode w9tree k = some v) ∧
      List.Pairwise (fun a b : List Nat × Value => keyLt a.1 b.1)
        (iterNode w9tree []) :=
  C9_iterate w9tree
    (TReach.ins (insertNode emptyNode [97, 98] (.str [1])) [97] (.int 3)
      (TReach.ins emptyNode [97, 98] (.str [1]) TReach.empty))

end SharedStructuresProof
